import Mathlib

/-!
Shallow embedding of the nomerge pattern-detection engine (main.ts and
src/main.ts of the repository).  Strings are modelled as `List Char`;
each JavaScript regular-expression operation used by the source is
modelled by its language semantics on character lists.  All definitions
are executable and structurally recursive (bounded scans use an explicit
fuel argument equal to the remaining text length, which is always
sufficient).  Case-insensitive matching (the regex `i` flag) is
modelled by ASCII lower-casing via `Char.toLower`, which agrees with
the JavaScript canonicalisation on the ASCII texts the properties
concern.
-/

set_option maxRecDepth 10000

abbrev Chars := List Char

/-- Case folding applied by a case-insensitive (`i` flag) regex match;
the identity for a case-sensitive match.  `ci = true` means the `i`
flag is present. -/
def foldChar (ci : Bool) (c : Char) : Char :=
  if ci then c.toLower else c

/-- Lower-casing of a whole string (used to speak about case-insensitive
occurrences). -/
def lowerStr (s : Chars) : Chars := s.map Char.toLower

/-- Does the escaped-literal pattern `p` match at the very start of `t`
(case folding per `ci`)?  This is the semantics of the regex built by
`pattern.replace(/[.*+?^${}()|[\]\\]/g, "\\$&")` anchored at one
position of the text. -/
def litMatchFrom (ci : Bool) : Chars → Chars → Bool
  | [], _ => true
  | _ :: _, [] => false
  | p :: ps, t :: ts => (foldChar ci p == foldChar ci t) && litMatchFrom ci ps ts

/-- `regex.test(text)` for the escaped-literal pattern: try every start
position left to right. -/
def litSearch (ci : Bool) (p : Chars) : Chars → Bool
  | [] => litMatchFrom ci p []
  | t :: ts => litMatchFrom ci p (t :: ts) || litSearch ci p ts

/-- `containsPattern(text, patterns, caseSensitive)` from main.ts /
src/main.ts: true iff some pattern, matched as an escaped literal with
flags `g` or `gi`, occurs in the text. -/
def containsPattern (text : Chars) (patterns : List Chars) (caseSensitive : Bool) : Bool :=
  patterns.any fun pattern => litSearch (!caseSensitive) pattern text

/-- One scanning step of `text.matchAll(regex)` for a nonempty escaped
literal `c :: ps`: find the leftmost match at or after the current
position, record the actually matched slice of the text, and continue
right after it (matches are non-overlapping).  `fuel` bounds the scan;
it is always called with `fuel ≥ t.length`, which suffices because each
recursive call shortens `t`. -/
def occA (ci : Bool) (c : Char) (ps : Chars) : Nat → Chars → List Chars
  | 0, _ => []
  | _ + 1, [] => []
  | fuel + 1, t :: ts =>
    if litMatchFrom ci (c :: ps) (t :: ts) then
      ((t :: ts).take (ps.length + 1)) :: occA ci c ps fuel ((t :: ts).drop (ps.length + 1))
    else
      occA ci c ps fuel ts

/-- All matches of `text.matchAll(regex)` for the escaped literal `p`,
in order, each given as the actually matched slice of the text.  An
empty pattern matches (as the empty string) once at every position,
`t.length + 1` times in all, exactly as a JavaScript global regex does
(`lastIndex` is bumped past each zero-width match). -/
def occList (ci : Bool) (p t : Chars) : List Chars :=
  match p with
  | [] => List.replicate (t.length + 1) []
  | c :: ps => occA ci c ps t.length t

/-- The `PatternMatch` record of src/main.ts. -/
structure PatternMatch where
  pattern : Chars
  actualText : Chars
  count : Nat
deriving DecidableEq

/-- The string key `` `${pattern}:${actualText}` `` used by
`findPatternMatches` for its `Map`. -/
def matchKey (p a : Chars) : Chars := p ++ ':' :: a

/-- One `matchMap` update of `findPatternMatches`: if the key is
present, bump its count, otherwise append a fresh entry with count 1
(a JavaScript `Map` preserves insertion order). -/
def bumpKey (key p a : Chars) : List (Chars × PatternMatch) → List (Chars × PatternMatch)
  | [] => [(key, ⟨p, a, 1⟩)]
  | (k, pm) :: rest =>
    if k == key then (k, ⟨pm.pattern, pm.actualText, pm.count + 1⟩) :: rest
    else (k, pm) :: bumpKey key p a rest

/-- `findPatternMatches(text, patterns, caseSensitive)` from
src/main.ts: scan every pattern's occurrences in order and aggregate
them in the insertion-ordered map, then return the values. -/
def findPatternMatches (text : Chars) (patterns : List Chars) (caseSensitive : Bool) :
    List PatternMatch :=
  (patterns.foldl
    (fun m pattern =>
      (occList (!caseSensitive) pattern text).foldl
        (fun m' actual => bumpKey (matchKey pattern actual) pattern actual m') m)
    []).map Prod.snd

/-- The (pattern, actualText) pair of an aggregated entry. -/
def pairOf (e : PatternMatch) : Chars × Chars := (e.pattern, e.actualText)

/-- The stream of (pattern, actual occurrence) pairs that
`findPatternMatches` feeds into its map: patterns in the order given,
and within one pattern its occurrences left to right. -/
def pairStream (text : Chars) (patterns : List Chars) (caseSensitive : Bool) :
    List (Chars × Chars) :=
  patterns.flatMap fun p => (occList (!caseSensitive) p text).map fun a => (p, a)

/-- Number of occurrences of one (pattern, actual) pair in a stream. -/
def countPA (s : List (Chars × Chars)) (p a : Chars) : Nat :=
  (s.filter fun pr => pr.1 == p && pr.2 == a).length

/-- Keep the first occurrence of each element not already in `seen`,
dropping later duplicates. -/
def seenDedup (seen : List (Chars × Chars)) : List (Chars × Chars) → List (Chars × Chars)
  | [] => []
  | x :: xs => if x ∈ seen then seenDedup seen xs else x :: seenDedup (x :: seen) xs

/-- The distinct elements of a stream in order of first encounter. -/
def firstEncounters (s : List (Chars × Chars)) : List (Chars × Chars) :=
  seenDedup [] s

/-- `matches.reduce((sum, m) => sum + m.count, 0)`. -/
def totalOf (ms : List PatternMatch) : Nat :=
  ms.foldl (fun s m => s + m.count) 0

/-- Total count carried by the entries for one (pattern, actual) pair. -/
def pairCount (m : List PatternMatch) (p a : Chars) : Nat :=
  ((m.filter fun e => e.pattern == p && e.actualText == a).map PatternMatch.count).sum

/-- Pair-keyed counterpart of `bumpKey`; under the invariant that every
stored key is `matchKey` of its entry's pair, the string-keyed map of
the source behaves exactly like this (proved below). -/
def bumpPair (p a : Chars) : List PatternMatch → List PatternMatch
  | [] => [⟨p, a, 1⟩]
  | pm :: rest =>
    if pm.pattern == p && pm.actualText == a then
      ⟨pm.pattern, pm.actualText, pm.count + 1⟩ :: rest
    else
      pm :: bumpPair p a rest

/-- Folding a pair stream through `bumpPair`. -/
def pairFold (s : List (Chars × Chars)) (acc : List PatternMatch) : List PatternMatch :=
  s.foldl (fun m pr => bumpPair pr.1 pr.2 m) acc

/-! ## Path matcher (`isIgnored`) -/

/-- Tokens of the regular expression built by `isIgnored`'s glob
translation: `.replace(/\./g, "\\.")`, then `**` → `.*`, `*` → `[^/]*`,
`?` → `[^/]`.  `lit c` is a literal character (in particular an escaped
dot), `starAny` is `.*`, `starNoSlash` is `[^/]*`, `oneNoSlash` is
`[^/]`, and `plusLit c` is the regex `c+` that arises when the rule
contains a raw `+` right after a literal (the source does not escape
`+`). -/
inductive GTok where
  | lit (c : Char)
  | starAny
  | starNoSlash
  | oneNoSlash
  | plusLit (c : Char)
deriving DecidableEq

/-- The glob-to-regex translation of `isIgnored`, read off the regex
string it builds.  The replacements are global and left-to-right, so
`**` is munched before `*`; a `.` is escaped and therefore literal.  A
raw `+` after a literal atom becomes the regex one-or-more quantifier
on that atom.  This models the regex faithfully for every rule whose
only regex metacharacters are `.`, `*`, `?` and such a `+`; rules with
other unescaped metacharacters (`( ) [ ] { } | ^ $ \`) or with the
internal `___DOUBLESTAR___` placeholder as literal text are outside the
model (the theorems below restrict to the safe fragment plus `+`). -/
def globToTokens : Chars → List GTok
  | [] => []
  | '*' :: '*' :: rest => GTok.starAny :: globToTokens rest
  | '*' :: rest => GTok.starNoSlash :: globToTokens rest
  | '?' :: rest => GTok.oneNoSlash :: globToTokens rest
  | c :: '+' :: rest => GTok.plusLit c :: globToTokens rest
  | c :: rest => GTok.lit c :: globToTokens rest

/-- The JavaScript LineTerminator characters, which the regex `.` does
not match when the dotAll (`s`) flag is absent: LF, CR, LINE SEPARATOR
and PARAGRAPH SEPARATOR. -/
def isLineTerm (c : Char) : Bool :=
  c == '\n' || c == '\r' || c == Char.ofNat 0x2028 || c == Char.ofNat 0x2029

/-- Language semantics of the anchored token regex `^t₁t₂…tₙ$` on a
path: a quantified token consumes some decomposition of the remaining
text.  The regex `test` is true iff some decomposition matches, which
is what this decides.  `starAny` is `.*` built without the dotAll flag,
so it consumes a run of characters none of which is a line terminator;
the negated classes `[^/]` and `[^/]*` do match line terminators. -/
def tokMatch : List GTok → Chars → Bool
  | [], s => s.isEmpty
  | GTok.lit _ :: _, [] => false
  | GTok.lit c :: ts, d :: s => c == d && tokMatch ts s
  | GTok.oneNoSlash :: _, [] => false
  | GTok.oneNoSlash :: ts, d :: s => d != '/' && tokMatch ts s
  | GTok.starAny :: ts, s =>
    (List.range (s.length + 1)).any fun k =>
      (s.take k).all (fun d => !(isLineTerm d)) && tokMatch ts (s.drop k)
  | GTok.starNoSlash :: ts, s =>
    (List.range (s.length + 1)).any fun k =>
      (s.take k).all (fun d => d != '/') && tokMatch ts (s.drop k)
  | GTok.plusLit c :: ts, s =>
    (List.range (s.length + 1)).any fun k =>
      decide (1 ≤ k) && (s.take k).all (fun d => d == c) && tokMatch ts (s.drop k)

/-- Strip one leading `./`, as `isIgnored` does to both the path and
each rule. -/
def stripDotSlash : Chars → Chars
  | '.' :: '/' :: rest => rest
  | s => s

/-- `isIgnored(filePath, ignorePatterns)` from main.ts / src/main.ts:
normalize both sides, accept on exact equality, otherwise test the
anchored glob-translated regex; OR over the rules (the source's early
`return false` for an empty rule list is the empty OR). -/
def isIgnored (filePath : Chars) (ignorePatterns : List Chars) : Bool :=
  ignorePatterns.any fun pattern =>
    stripDotSlash filePath == stripDotSlash pattern ||
      tokMatch (globToTokens (stripDotSlash pattern)) (stripDotSlash filePath)

/-- Tokens of the spec's glob dialect: `*`, `**`, `?` and literal
characters. -/
inductive SGlob where
  | lit (c : Char)
  | star
  | dstar
  | qmark
deriving DecidableEq

/-- Modelled from the spec: tokenisation of an IgnoreRule, `**` munched
before `*`, every other character literal. -/
def specTokens : Chars → List SGlob
  | [] => []
  | '*' :: '*' :: rest => SGlob.dstar :: specTokens rest
  | '*' :: rest => SGlob.star :: specTokens rest
  | '?' :: rest => SGlob.qmark :: specTokens rest
  | c :: rest => SGlob.lit c :: specTokens rest

/-- Modelled from the spec: `*` matches any run of characters excluding
`/`, `**` any run including `/`, `?` exactly one character excluding
`/`; the whole rule must match the whole path. -/
def specMatch : List SGlob → Chars → Bool
  | [], s => s.isEmpty
  | SGlob.lit _ :: _, [] => false
  | SGlob.lit c :: ts, d :: s => c == d && specMatch ts s
  | SGlob.qmark :: _, [] => false
  | SGlob.qmark :: ts, d :: s => d != '/' && specMatch ts s
  | SGlob.dstar :: ts, s =>
    (List.range (s.length + 1)).any fun k => specMatch ts (s.drop k)
  | SGlob.star :: ts, s =>
    (List.range (s.length + 1)).any fun k =>
      (s.take k).all (fun d => d != '/') && specMatch ts (s.drop k)

/-- Modelled from the spec / the claim: a path is ignored iff some
rule, after normalization, equals the path exactly or glob-matches the
entire path. -/
def globIgnoredSpec (filePath : Chars) (rules : List Chars) : Bool :=
  rules.any fun rule =>
    stripDotSlash filePath == stripDotSlash rule ||
      specMatch (specTokens (stripDotSlash rule)) (stripDotSlash filePath)

/-- Conversion of a spec glob token to the regex token the source's
translation produces for it. -/
def sglobToG : SGlob → GTok
  | SGlob.lit c => GTok.lit c
  | SGlob.star => GTok.starNoSlash
  | SGlob.dstar => GTok.starAny
  | SGlob.qmark => GTok.oneNoSlash

/-- Characters that reach the regex unescaped yet are regex
metacharacters the glob translation does not handle: for rules free of
them (and of the literal `___DOUBLESTAR___` placeholder) the built
regex means exactly the spec's glob dialect. -/
def regexSafeChar (c : Char) : Bool :=
  !(c == '+' || c == '(' || c == ')' || c == '[' || c == ']' || c == '{' ||
    c == '}' || c == '|' || c == '^' || c == '$' || c == '\\')

/-- The literal text of the placeholder used internally by the
translation; a rule containing it as literal text is rewritten to `.*`
by the final placeholder replacement, so such rules are excluded from
the safe fragment. -/
def placeholderText : Chars := "___DOUBLESTAR___".toList

/-- Rules on which the source's regex translation is exactly the spec's
glob dialect. -/
def safeRule (r : Chars) : Bool :=
  r.all regexSafeChar && !(litSearch false placeholderText r)

/-! ## Description check (`checkDescription`) -/

/-- The backtick character (code point 96). -/
def backtick : Char := Char.ofNat 96

/-- Is `c` a backtick? -/
def isBT (c : Char) : Bool := c == backtick

/-- Split a string at its first triple-backtick: returns the part
before it and the part after it, or `none` when there is no triple
backtick. -/
def findTriple : Chars → Option (Chars × Chars)
  | c1 :: c2 :: c3 :: rest =>
    if isBT c1 && isBT c2 && isBT c3 then some ([], rest)
    else (findTriple (c2 :: c3 :: rest)).map fun pr => (c1 :: pr.1, pr.2)
  | _ => none

/-- Fuel-bounded engine of the fenced-code-block removal
`.replace(/\x60\x60\x60[\s\S]*?\x60\x60\x60/g, "")`: the leftmost
match starts at the first triple backtick and, being lazy, ends at the
next one; the global replace continues after the removed region.  When
the first triple backtick has no closing one, no match exists anywhere
(a later open would need an even later close) and the text is kept.
Each round consumes at least six characters, so `fuel = s.length`
always suffices. -/
def removeFencedA : Nat → Chars → Chars
  | 0, s => s
  | fuel + 1, s =>
    match findTriple s with
    | none => s
    | some (before, rest) =>
      match findTriple rest with
      | none => s
      | some (_, rest2) => before ++ removeFencedA fuel rest2

/-- Removal of fenced code blocks from a description. -/
def removeFenced (s : Chars) : Chars := removeFencedA s.length s

/-- Scan for the backtick closing an inline code span: returns the text
after it. -/
def grabTail : Chars → Option Chars
  | [] => none
  | c :: rest => if isBT c then some rest else grabTail rest

/-- Given the text right after an opening backtick, recognise
`[^\x60]+\x60`: at least one non-backtick character and then the
closing backtick; returns the text after the span, or `none` when the
span does not match here. -/
def grabSpan : Chars → Option Chars
  | [] => none
  | c :: rest => if isBT c then none else grabTail rest

/-- Fuel-bounded engine of the inline-code removal
`.replace(/\x60[^\x60]+\x60/g, "")`: at each backtick try to match a
span; on success continue after it, otherwise keep the character and
move on.  A successful span consumes at least three characters, so
`fuel = s.length` suffices. -/
def removeInlineA : Nat → Chars → Chars
  | 0, s => s
  | _ + 1, [] => []
  | fuel + 1, c :: rest =>
    if isBT c then
      match grabSpan rest with
      | some rest2 => removeInlineA fuel rest2
      | none => c :: removeInlineA fuel rest
    else c :: removeInlineA fuel rest

/-- Removal of inline code spans from a description. -/
def removeInline (s : Chars) : Chars := removeInlineA s.length s

/-- `checkDescription(description, patterns, caseSensitive)` from
src/main.ts: a missing or empty description (JavaScript falsiness) is
clean; otherwise strip fenced code blocks, then inline code spans, and
only then run `containsPattern`. -/
def checkDescription (description : Option Chars) (patterns : List Chars)
    (caseSensitive : Bool) : Bool :=
  match description with
  | none => false
  | some d =>
    if d == [] then false
    else containsPattern (removeInline (removeFenced d)) patterns caseSensitive

/-! ## Configuration loading and run aggregation -/

/-- The `nomerge` field of `.nomerge.config.json`: a single pattern
string or a list of patterns. -/
inductive PatVal where
  | single (s : Chars)
  | multiple (l : List Chars)
deriving DecidableEq

/-- A parsed `.nomerge.config.json`, every field optional. -/
structure NoMergeConfigFile where
  nomerge : Option PatVal
  caseSensitive : Option Bool
  ignore : Option (List Chars)

/-- A fully-defaulted configuration as the engine consumes it. -/
structure NoMergeConfigOut where
  nomerge : PatVal
  caseSensitive : Bool
  ignore : List Chars

/-- The merge-with-defaults step of `loadConfig` in the root main.ts
(together with the `config.ignore ?? []` at its use site): a missing
`ignore` is the empty list. -/
def loadConfigRoot (c : NoMergeConfigFile) : NoMergeConfigOut where
  nomerge := c.nomerge.getD (PatVal.single "nomerge".toList)
  caseSensitive := c.caseSensitive.getD false
  ignore := c.ignore.getD []

/-- The baseline exclusions of src/main.ts's `loadConfig`. -/
def defaultIgnorePatterns : List Chars := [".github/workflows/**".toList]

/-- The merge-with-defaults step of `loadConfig` in src/main.ts: the
baseline exclusions are always present, and a configured `ignore` list
is appended after them. -/
def loadConfigSrc (c : NoMergeConfigFile) : NoMergeConfigOut where
  nomerge := c.nomerge.getD (PatVal.single "nomerge".toList)
  caseSensitive := c.caseSensitive.getD false
  ignore :=
    match c.ignore with
    | some ig => defaultIgnorePatterns ++ ig
    | none => defaultIgnorePatterns

/-- A changed file as the GitHub Actions mode sees it: name, status and
the fetched content; `content = none` models a fetch or decode failure,
which the source catches and skips. -/
structure GitHubFileE where
  filename : Chars
  status : Chars
  content : Option Chars

/-- The `FileMatch` record of src/main.ts. -/
structure FileMatch where
  filename : Chars
  «matches» : List PatternMatch
  totalCount : Nat
deriving DecidableEq

/-- The reserved configuration file name. -/
def configFileName : Chars := ".nomerge.config.json".toList

/-- The pure content of `checkFiles` in src/main.ts: skip removed
files, the configuration file itself, ignored paths and unreadable
contents; report each remaining file whose content matches, in input
order. -/
def checkFilesPure (files : List GitHubFileE) (patterns : List Chars)
    (caseSensitive : Bool) (ignorePatterns : List Chars) : List FileMatch :=
  files.filterMap fun file =>
    if file.status == "removed".toList then none
    else if file.filename == configFileName then none
    else if isIgnored file.filename ignorePatterns then none
    else
      match file.content with
      | none => none
      | some content =>
        let ms := findPatternMatches content patterns caseSensitive
        if 0 < ms.length then some ⟨file.filename, ms, totalOf ms⟩ else none

/-- The verdict of `runGitHubActionsMode`:
`passed = !foundInDescription && foundInFiles.length === 0`. -/
def runPassed (body : Option Chars) (files : List GitHubFileE) (patterns : List Chars)
    (caseSensitive : Bool) (ignorePatterns : List Chars) : Bool :=
  !(checkDescription body patterns caseSensitive) &&
    (checkFilesPure files patterns caseSensitive ignorePatterns).length == 0

/-! ## Lemmas about the literal scanner -/

/-- Case-sensitive anchored matching is matching a literal list prefix. -/
theorem litMatchFrom_false_iff : ∀ (p t : Chars),
    litMatchFrom false p t = true ↔ ∃ v, t = p ++ v := by
  intro p
  induction p with
  | nil => intro t; simp [litMatchFrom]
  | cons c ps ih =>
    intro t
    cases t with
    | nil => simp [litMatchFrom]
    | cons d ts =>
      simp [litMatchFrom, foldChar, ih, List.cons_eq_cons, eq_comm (a := d) (b := c)]

/-- Case-sensitive search is literal substring occurrence. -/
theorem litSearch_false_iff : ∀ (t p : Chars),
    litSearch false p t = true ↔ ∃ u v, t = u ++ p ++ v := by
  intro t
  induction t with
  | nil =>
    intro p
    cases p with
    | nil => simp [litSearch, litMatchFrom]
    | cons c ps => simp [litSearch, litMatchFrom]
  | cons d ts ih =>
    intro p
    simp only [litSearch, Bool.or_eq_true, litMatchFrom_false_iff, ih]
    constructor
    · rintro (⟨v, hv⟩ | ⟨u, v, huv⟩)
      · exact ⟨[], v, by simpa using hv⟩
      · exact ⟨d :: u, v, by simp [huv]⟩
    · rintro ⟨u, v, huv⟩
      cases u with
      | nil => exact Or.inl ⟨v, by simpa using huv⟩
      | cons d' u' =>
        simp only [List.cons_append, List.cons_eq_cons] at huv
        exact Or.inr ⟨u', v, by simpa using huv.2⟩

/-- A case-folded copy of the pattern matches at the start, under the
`i` flag. -/
theorem litMatchFrom_true_of : ∀ (p v w : Chars), lowerStr v = lowerStr p →
    litMatchFrom true p (v ++ w) = true := by
  intro p
  induction p with
  | nil => intro v w _; simp [litMatchFrom]
  | cons c ps ih =>
    intro v w hv
    cases v with
    | nil => simp [lowerStr] at hv
    | cons d vs =>
      simp only [lowerStr, List.map_cons, List.cons_eq_cons] at hv
      simp [litMatchFrom, foldChar, hv.1, ih vs w hv.2]

/-- Search succeeds anywhere to the right of a successful anchor. -/
theorem litSearch_true_extend : ∀ (u p rest : Chars),
    litMatchFrom true p rest = true → litSearch true p (u ++ rest) = true := by
  intro u
  induction u with
  | nil =>
    intro p rest h
    cases rest with
    | nil => simpa [litSearch] using h
    | cons d ts => simp [litSearch, h]
  | cons c u' ih =>
    intro p rest h
    simp [litSearch, ih p rest h]

/-! ## C1: case-sensitive containsPattern is literal substring search -/

/-- C1.  For every text `T` and pattern list `Ps`,
`containsPattern(T, Ps, caseSensitive = true)` is true iff some pattern
of `Ps` occurs verbatim as a literal substring of `T` (patterns are
escaped, so they are never regex syntax). -/
theorem containsPattern_caseSensitive_iff : ∀ (T : Chars) (Ps : List Chars),
    containsPattern T Ps true = true ↔ ∃ P ∈ Ps, ∃ u v, T = u ++ P ++ v := by
  intro T Ps
  simp [containsPattern, List.any_eq_true, litSearch_false_iff]

/-! ## C8: case-insensitive matching accepts every casing -/

/-- C8.  Any mixed-case occurrence of a pattern is found when
`caseSensitive = false`, while with `caseSensitive = true` a
differently-cased occurrence is not found: with pattern `DONOTMERGE`
and text `donotmerge`, `containsPattern` is false case-sensitively and
true case-insensitively. -/
theorem containsPattern_caseInsensitive :
    (∀ (P u v w : Chars), lowerStr v = lowerStr P →
      containsPattern (u ++ v ++ w) [P] false = true) ∧
    containsPattern "donotmerge".toList ["DONOTMERGE".toList] true = false ∧
    containsPattern "donotmerge".toList ["DONOTMERGE".toList] false = true := by
  refine ⟨?_, by decide, by decide⟩
  intro P u v w hv
  have h := litSearch_true_extend u P (v ++ w) (litMatchFrom_true_of P v w hv)
  simp [containsPattern, h]

/-- Witness for C8 at a concrete input: the differently-cased
occurrence `NOMERGE` of pattern `nomerge` is found case-insensitively. -/
theorem containsPattern_caseInsensitive_witness :
    containsPattern ("x ".toList ++ "NOMERGE".toList ++ " y".toList)
      ["nomerge".toList] false = true :=
  containsPattern_caseInsensitive.1 "nomerge".toList "x ".toList "NOMERGE".toList
    " y".toList (by decide)

/-! ## C9: degenerate inputs -/

/-- Counterexample to C9 as stated: for the empty text and the pattern
list consisting of the empty pattern, `containsPattern` returns true
(the empty regex matches everywhere) and `findPatternMatches` returns a
one-entry list, not false and the empty list. -/
theorem emptyText_emptyPattern_counterexample :
    containsPattern [] [([] : Chars)] true = true ∧
    findPatternMatches [] [([] : Chars)] true = [⟨[], [], 1⟩] := by
  constructor
  · decide
  · rfl

/-- With every pattern nonempty, the scan over a pattern's occurrences
in the empty text is empty, so the map fold leaves the state alone. -/
theorem foldl_empty_text : ∀ (Ps : List Chars) (cs : Bool)
    (m : List (Chars × PatternMatch)), (∀ p ∈ Ps, p ≠ []) →
    Ps.foldl
      (fun m' pattern =>
        (occList (!cs) pattern []).foldl
          (fun m'' actual => bumpKey (matchKey pattern actual) pattern actual m'') m')
      m = m := by
  intro Ps
  induction Ps with
  | nil => intro cs m _; rfl
  | cons p Ps ih =>
    intro cs m h
    have hp : p ≠ [] := h p (List.mem_cons_self _ _)
    cases p with
    | nil => exact absurd rfl hp
    | cons c ps =>
      simp only [List.foldl_cons]
      have hocc : occList (!cs) (c :: ps) [] = [] := rfl
      rw [hocc]
      exact ih cs m (fun q hq => h q (List.mem_cons_of_mem _ hq))

/-- C9 (amended).  For the empty pattern list both operations return
the trivial result on every text; for the empty text they do so for
every list of nonempty patterns (an empty-string pattern instead
matches the empty text, see the counterexample). -/
theorem degenerate_inputs :
    (∀ (T : Chars) (cs : Bool),
      containsPattern T [] cs = false ∧ findPatternMatches T [] cs = []) ∧
    (∀ (Ps : List Chars) (cs : Bool), (∀ p ∈ Ps, p ≠ []) →
      containsPattern [] Ps cs = false ∧ findPatternMatches [] Ps cs = []) := by
  constructor
  · intro T cs; exact ⟨rfl, rfl⟩
  · intro Ps cs h
    constructor
    · simp only [containsPattern, List.any_eq_false]
      intro p hp
      have hp' : p ≠ [] := h p hp
      cases p with
      | nil => exact absurd rfl hp'
      | cons c ps => simp [litSearch, litMatchFrom]
    · simp only [findPatternMatches]
      rw [foldl_empty_text Ps cs [] h]
      rfl

/-- Witness for C9 at a concrete input. -/
theorem degenerate_inputs_witness :
    containsPattern [] ["nomerge".toList] true = false ∧
    findPatternMatches [] ["nomerge".toList] true = [] :=
  degenerate_inputs.2 ["nomerge".toList] true (by decide)

/-! ## C10: isIgnored is monotone in its rule list -/

/-- C10.  Appending ignore rules decomposes as an OR, so a path ignored
under `R1` stays ignored under `R1 ++ R2`. -/
theorem isIgnored_append : ∀ (path : Chars) (R1 R2 : List Chars),
    isIgnored path (R1 ++ R2) = (isIgnored path R1 || isIgnored path R2) ∧
    (isIgnored path R1 = true → isIgnored path (R1 ++ R2) = true) := by
  intro path R1 R2
  have hor : isIgnored path (R1 ++ R2) = (isIgnored path R1 || isIgnored path R2) := by
    simp [isIgnored, List.any_append]
  exact ⟨hor, fun h => by rw [hor, h, Bool.true_or]⟩

/-- Witness for C10 at a concrete input. -/
theorem isIgnored_append_witness :
    isIgnored "src/a.ts".toList ["src/**".toList] = true ∧
    isIgnored "src/a.ts".toList (["src/**".toList] ++ ["docs/*".toList]) = true :=
  ⟨by decide,
    (isIgnored_append "src/a.ts".toList ["src/**".toList] ["docs/*".toList]).2 (by decide)⟩

/-! ## C6: the passed flag -/

/-- C6.  The run passes iff the description check found nothing and the
per-source report list is empty. -/
theorem runPassed_iff : ∀ (body : Option Chars) (files : List GitHubFileE)
    (patterns : List Chars) (cs : Bool) (ign : List Chars),
    runPassed body files patterns cs ign = true ↔
      (checkDescription body patterns cs = false ∧
        checkFilesPure files patterns cs ign = []) := by
  intro body files patterns cs ign
  simp [runPassed, Bool.and_eq_true, Bool.not_eq_true', List.length_eq_zero]

/-! ## C4: the glob reading of isIgnored -/

/-- Counterexample to C4 as stated, in two parts.  First, the
translation escapes only `.`, so a rule containing a raw regex
metacharacter is not matched as the spec's glob dialect: the rule `a+b`
compiles to the regex `^a+b$`, so the path `aab` is ignored, while
under the glob reading `a+b` is pure literal text and does not match
`aab`.  Second, `**` compiles to `.*` without the dotAll flag, so it
cannot cross a line terminator: the rule `src/**` does not ignore the
path `src/a\nb`, while the glob reading (`**` matches any run of
characters) does match it. -/
theorem isIgnored_metachar_counterexample :
    (isIgnored "aab".toList ["a+b".toList] = true ∧
      globIgnoredSpec "aab".toList ["a+b".toList] = false) ∧
    (isIgnored "src/a\nb".toList ["src/**".toList] = false ∧
      globIgnoredSpec "src/a\nb".toList ["src/**".toList] = true) := by
  refine ⟨⟨?_, ?_⟩, ?_, ?_⟩ <;> decide

/-- The normalized rule or path is a suffix of the original. -/
theorem stripDotSlash_sub : ∀ (r : Chars), ∃ u, r = u ++ stripDotSlash r := by
  intro r
  rw [stripDotSlash.eq_def]
  split
  · exact ⟨['.', '/'], rfl⟩
  · exact ⟨[], rfl⟩

/-- Characters survive the `./`-stripping normalization. -/
theorem mem_stripDotSlash {c : Char} {r : Chars} (h : c ∈ stripDotSlash r) : c ∈ r := by
  obtain ⟨u, hu⟩ := stripDotSlash_sub r
  rw [hu]
  exact List.mem_append.mpr (Or.inr h)

/-- Pointwise-equal predicates give equal `any` over a list. -/
theorem any_congr_mem {α : Type} (f g : α → Bool) : ∀ (l : List α),
    (∀ x ∈ l, f x = g x) → l.any f = l.any g := by
  intro l
  induction l with
  | nil => intro _; rfl
  | cons x xs ih =>
    intro h
    simp only [List.any_cons]
    rw [h x (List.mem_cons_self _ _), ih (fun y hy => h y (List.mem_cons_of_mem _ hy))]

/-- Translation of a `+`-free rule agrees token-by-token with the
spec's glob tokenisation. -/
theorem globToTokens_eq_spec : ∀ (r : Chars), '+' ∉ r →
    globToTokens r = (specTokens r).map sglobToG := by
  intro r
  induction r using specTokens.induct with
  | case1 => intro _; rfl
  | case2 rest ih =>
    intro h
    simp only [List.mem_cons, not_or] at h
    simp [globToTokens, specTokens, sglobToG, ih h.2.2]
  | case3 rest hnostar ih =>
    intro h
    simp only [List.mem_cons, not_or] at h
    have hnoplus : ∀ rest1, rest = '+' :: rest1 → False := by
      rintro rest1 rfl
      exact h.2 (List.mem_cons_self _ _)
    simp [globToTokens, specTokens, sglobToG, hnostar, hnoplus, ih h.2]
  | case4 rest ih =>
    intro h
    simp only [List.mem_cons, not_or] at h
    have hnoplus : ∀ rest1, rest = '+' :: rest1 → False := by
      rintro rest1 rfl
      exact h.2 (List.mem_cons_self _ _)
    simp [globToTokens, specTokens, sglobToG, hnoplus, ih h.2]
  | case5 c rest h1 h2 h3 ih =>
    intro h
    simp only [List.mem_cons, not_or] at h
    have hnoplus : ∀ rest1, rest = '+' :: rest1 → False := by
      rintro rest1 rfl
      exact h.2 (List.mem_cons_self _ _)
    simp [globToTokens, specTokens, sglobToG, h1, h2, h3, hnoplus, ih h.2]

/-- The regex-token matcher agrees with the spec's glob matcher on
translated token lists, for paths free of line terminators (on a path
containing one, `.*` and the spec's `**` part ways). -/
theorem tokMatch_map_sglob : ∀ (ts : List SGlob) (s : Chars),
    (∀ c ∈ s, isLineTerm c = false) →
    tokMatch (ts.map sglobToG) s = specMatch ts s := by
  intro ts
  induction ts with
  | nil => intro s _; rfl
  | cons t ts ih =>
    intro s hs
    cases t with
    | lit c =>
      cases s with
      | nil => rfl
      | cons d s' =>
        have hs' : ∀ c ∈ s', isLineTerm c = false :=
          fun c' hc => hs c' (List.mem_cons_of_mem _ hc)
        simp [sglobToG, tokMatch, specMatch, ih s' hs']
    | qmark =>
      cases s with
      | nil => rfl
      | cons d s' =>
        have hs' : ∀ c ∈ s', isLineTerm c = false :=
          fun c' hc => hs c' (List.mem_cons_of_mem _ hc)
        simp [sglobToG, tokMatch, specMatch, ih s' hs']
    | dstar =>
      simp only [List.map_cons, sglobToG, tokMatch, specMatch]
      apply any_congr_mem
      intro k _
      have htake : ((s.take k).all fun d => !(isLineTerm d)) = true := by
        rw [List.all_eq_true]
        intro d hd
        simp [hs d (List.take_subset k s hd)]
      rw [htake, Bool.true_and,
        ih (s.drop k) (fun c hc => hs c (List.drop_subset k s hc))]
    | star =>
      simp only [List.map_cons, sglobToG, tokMatch, specMatch]
      apply any_congr_mem
      intro k _
      rw [ih (s.drop k) (fun c hc => hs c (List.drop_subset k s hc))]

/-- A safe rule contains no raw `+`. -/
theorem safeRule_no_plus {r : Chars} (h : safeRule r = true) : '+' ∉ r := by
  intro hmem
  simp only [safeRule, Bool.and_eq_true, List.all_eq_true] at h
  have := h.1 '+' hmem
  simp [regexSafeChar] at this

/-- C4 (amended).  For rules built only from literal characters, `*`,
`**`, `?` and `.`, with no other regex metacharacter
(`+ ( ) [ ] { } | ^ $ \`) and without the literal placeholder text
`___DOUBLESTAR___`, and for paths containing no line terminator,
`isIgnored` returns true iff some rule, after stripping one leading
`./` from rule and path, equals the path exactly or matches the entire
path under the spec's glob dialect.  (For rules with raw
metacharacters, and on paths with a line terminator under a `**` rule,
the equivalence fails: see the counterexample.) -/
theorem isIgnored_glob_spec : ∀ (path : Chars) (rules : List Chars),
    (∀ r ∈ rules, safeRule r = true) →
    (∀ c ∈ path, isLineTerm c = false) →
    isIgnored path rules = globIgnoredSpec path rules := by
  intro path rules h hpath
  simp only [isIgnored, globIgnoredSpec]
  apply any_congr_mem
  intro r hr
  have hplus : '+' ∉ stripDotSlash r := fun hm =>
    safeRule_no_plus (h r hr) (mem_stripDotSlash hm)
  have hpath' : ∀ c ∈ stripDotSlash path, isLineTerm c = false :=
    fun c hc => hpath c (mem_stripDotSlash hc)
  rw [globToTokens_eq_spec _ hplus, tokMatch_map_sglob _ _ hpath']

/-- Witness for C4 on the claim's concrete examples. -/
theorem isIgnored_glob_spec_witness :
    (isIgnored "src/a.ts".toList ["src/**".toList] =
      globIgnoredSpec "src/a.ts".toList ["src/**".toList]) ∧
    (isIgnored "test12.md".toList ["test?.md".toList] =
      globIgnoredSpec "test12.md".toList ["test?.md".toList]) ∧
    isIgnored "src/a.ts".toList ["src/**".toList] = true ∧
    isIgnored "test12.md".toList ["test?.md".toList] = false :=
  ⟨isIgnored_glob_spec "src/a.ts".toList ["src/**".toList] (by decide) (by decide),
    isIgnored_glob_spec "test12.md".toList ["test?.md".toList] (by decide) (by decide),
    by decide, by decide⟩

/-! ## C5: configuration defaults -/

/-- Counterexample to C5 as stated: in src/main.ts, a configuration
omitting `ignore` yields the baseline list `[".github/workflows/**"]`,
and a workflow path is then excluded — not the behaviour of the empty
ignore list. -/
theorem loadConfigSrc_missing_ignore_counterexample :
    (loadConfigSrc ⟨none, none, none⟩).ignore = defaultIgnorePatterns ∧
    isIgnored ".github/workflows/ci.yml".toList
      (loadConfigSrc ⟨none, none, none⟩).ignore = true ∧
    isIgnored ".github/workflows/ci.yml".toList [] = false := by
  exact ⟨rfl, by decide, rfl⟩

/-- C5 (amended).  A missing `caseSensitive` defaults to false in both
engines.  A missing `ignore` defaults to the empty list — under which
no path is ignored — in the root main.ts engine only; in src/main.ts it
defaults to the baseline `[".github/workflows/**"]`. -/
theorem loadConfig_defaults : ∀ (c : NoMergeConfigFile),
    (c.caseSensitive = none →
      (loadConfigRoot c).caseSensitive = false ∧
      (loadConfigSrc c).caseSensitive = false) ∧
    (c.ignore = none →
      (loadConfigRoot c).ignore = [] ∧
      (∀ path, isIgnored path (loadConfigRoot c).ignore = false) ∧
      (loadConfigSrc c).ignore = defaultIgnorePatterns) := by
  intro c
  constructor
  · intro h
    simp [loadConfigRoot, loadConfigSrc, h]
  · intro h
    refine ⟨by simp [loadConfigRoot, h], fun path => ?_, by simp [loadConfigSrc, h]⟩
    simp [loadConfigRoot, h, isIgnored]

/-- Witness for C5 at the all-defaults configuration. -/
theorem loadConfig_defaults_witness :
    (loadConfigRoot ⟨none, none, none⟩).caseSensitive = false ∧
    (loadConfigRoot ⟨none, none, none⟩).ignore = [] ∧
    isIgnored "src/a.ts".toList (loadConfigRoot ⟨none, none, none⟩).ignore = false :=
  ⟨((loadConfig_defaults ⟨none, none, none⟩).1 rfl).1,
    ((loadConfig_defaults ⟨none, none, none⟩).2 rfl).1,
    ((loadConfig_defaults ⟨none, none, none⟩).2 rfl).2.1 "src/a.ts".toList⟩

/-! ## C7: the description check strips code first -/

/-- C7.  `checkDescription` strips fenced code blocks, then inline code
spans, and only then applies `containsPattern`; hence the description
`See \x60nomerge\x60 in docs` with pattern `nomerge` checks clean even
though the literal substring is present. -/
theorem checkDescription_strips_code :
    (∀ (d : Chars) (ps : List Chars) (cs : Bool), d ≠ [] →
      checkDescription (some d) ps cs =
        containsPattern (removeInline (removeFenced d)) ps cs) ∧
    (∀ cs, checkDescription (some "See \x60nomerge\x60 in docs".toList)
      ["nomerge".toList] cs = false) ∧
    containsPattern "See \x60nomerge\x60 in docs".toList ["nomerge".toList] false = true := by
  refine ⟨?_, ?_, by decide⟩
  · intro d ps cs hd
    simp [checkDescription, hd]
  · intro cs
    cases cs <;> decide

/-- Witness for C7 on a nonempty description. -/
theorem checkDescription_strips_code_witness :
    checkDescription (some "ok".toList) ["nomerge".toList] false =
      containsPattern (removeInline (removeFenced "ok".toList)) ["nomerge".toList] false :=
  checkDescription_strips_code.1 "ok".toList ["nomerge".toList] false (by decide)

/-! ## C2 and C3: lemmas about occurrence scanning and aggregation -/

/-- A successful anchored match needs at least the pattern's length of
text. -/
theorem litMatchFrom_le_length : ∀ (ci : Bool) (p t : Chars),
    litMatchFrom ci p t = true → p.length ≤ t.length := by
  intro ci p
  induction p with
  | nil => intro t _; simp
  | cons c ps ih =>
    intro t h
    cases t with
    | nil => simp [litMatchFrom] at h
    | cons d ts =>
      simp only [litMatchFrom, Bool.and_eq_true] at h
      simpa using ih ts h.2

/-- Every slice recorded by the matchAll scan has the pattern's
length. -/
theorem occA_length_mem : ∀ (ci : Bool) (c : Char) (ps : Chars) (fuel : Nat) (t a : Chars),
    a ∈ occA ci c ps fuel t → a.length = ps.length + 1 := by
  intro ci c ps fuel
  induction fuel with
  | zero => intro t a h; simp [occA] at h
  | succ fuel ih =>
    intro t a h
    cases t with
    | nil => simp [occA] at h
    | cons d ts =>
      rw [occA] at h
      by_cases hm : litMatchFrom ci (c :: ps) (d :: ts) = true
      · rw [if_pos hm] at h
        rcases List.mem_cons.mp h with h1 | h1
        · have hle := litMatchFrom_le_length ci (c :: ps) (d :: ts) hm
          subst h1
          simpa using Nat.min_eq_left (by simpa using hle)
        · exact ih _ a h1
      · rw [if_neg hm] at h
        exact ih _ a h

/-- Every actual occurrence has the length of its pattern. -/
theorem occList_length_mem : ∀ (ci : Bool) (p t a : Chars),
    a ∈ occList ci p t → a.length = p.length := by
  intro ci p t a h
  cases p with
  | nil =>
    simp only [occList] at h
    simp [List.eq_of_mem_replicate h]
  | cons c ps => exact occA_length_mem ci c ps t.length t a h

/-- Case-sensitive occurrences are exactly the pattern. -/
theorem occA_caseSensitive_mem : ∀ (c : Char) (ps : Chars) (fuel : Nat) (t a : Chars),
    a ∈ occA false c ps fuel t → a = c :: ps := by
  intro c ps fuel
  induction fuel with
  | zero => intro t a h; simp [occA] at h
  | succ fuel ih =>
    intro t a h
    cases t with
    | nil => simp [occA] at h
    | cons d ts =>
      rw [occA] at h
      by_cases hm : litMatchFrom false (c :: ps) (d :: ts) = true
      · rw [if_pos hm] at h
        rcases List.mem_cons.mp h with h1 | h1
        · obtain ⟨v, hv⟩ := (litMatchFrom_false_iff (c :: ps) (d :: ts)).mp hm
          subst h1
          rw [hv]
          simp [List.take_left]
        · exact ih _ a h1
      · rw [if_neg hm] at h
        exact ih _ a h

/-- Case-sensitive occurrence lists contain only the pattern itself. -/
theorem occList_caseSensitive_mem : ∀ (p t a : Chars),
    a ∈ occList false p t → a = p := by
  intro p t a h
  cases p with
  | nil =>
    simp only [occList] at h
    exact List.eq_of_mem_replicate h
  | cons c ps => exact occA_caseSensitive_mem c ps t.length t a h

/-- Since each actual text has its pattern's length, the map key
`pattern ++ ":" ++ actualText` determines the pair. -/
theorem matchKey_inj : ∀ (p a q b : Chars), a.length = p.length → b.length = q.length →
    matchKey p a = matchKey q b → p = q ∧ a = b := by
  intro p a q b ha hb h
  have hlen : p.length = q.length := by
    have := congrArg List.length h
    simp only [matchKey, List.length_append, List.length_cons, ha, hb] at this
    omega
  obtain ⟨h1, h2⟩ := List.append_inj h hlen
  exact ⟨h1, by simpa using h2⟩

/-- One keyed map update behaves like the pair-keyed update, under the
invariant that every stored key is the `matchKey` of its entry's pair
and every stored actual text has its pattern's length. -/
theorem bumpKey_map_snd : ∀ (m : List (Chars × PatternMatch)) (p a : Chars),
    a.length = p.length →
    (∀ e ∈ m, e.1 = matchKey e.2.pattern e.2.actualText ∧
      e.2.actualText.length = e.2.pattern.length) →
    (bumpKey (matchKey p a) p a m).map Prod.snd = bumpPair p a (m.map Prod.snd) ∧
    (∀ e ∈ bumpKey (matchKey p a) p a m, e.1 = matchKey e.2.pattern e.2.actualText ∧
      e.2.actualText.length = e.2.pattern.length) := by
  intro m
  induction m with
  | nil =>
    intro p a ha _
    refine ⟨rfl, ?_⟩
    intro e he
    simp only [bumpKey, List.mem_singleton] at he
    subst he
    exact ⟨rfl, ha⟩
  | cons kpm rest ih =>
    intro p a ha hinv
    obtain ⟨k, pm⟩ := kpm
    have hk : k = matchKey pm.pattern pm.actualText :=
      (hinv (k, pm) (List.mem_cons_self _ _)).1
    have hlen : pm.actualText.length = pm.pattern.length :=
      (hinv (k, pm) (List.mem_cons_self _ _)).2
    have hinv' : ∀ e ∈ rest, e.1 = matchKey e.2.pattern e.2.actualText ∧
        e.2.actualText.length = e.2.pattern.length :=
      fun e he => hinv e (List.mem_cons_of_mem _ he)
    by_cases heq : k = matchKey p a
    · have hpair : pm.pattern = p ∧ pm.actualText = a :=
        matchKey_inj pm.pattern pm.actualText p a hlen ha (by rw [← hk, heq])
      have hcond : (k == matchKey p a) = true := beq_iff_eq.mpr heq
      have hcond2 : (pm.pattern == p && pm.actualText == a) = true := by
        simp [hpair.1, hpair.2]
      constructor
      · simp only [bumpKey]
        rw [if_pos hcond]
        simp only [List.map_cons, bumpPair]
        rw [if_pos hcond2]
      · intro e he
        simp only [bumpKey] at he
        rw [if_pos hcond] at he
        rcases List.mem_cons.mp he with h1 | h1
        · subst h1
          exact ⟨hk, by simpa using hlen⟩
        · exact hinv' e h1
    · have hcond : (k == matchKey p a) = false := beq_eq_false_iff_ne.mpr heq
      have hpairne : ¬(pm.pattern = p ∧ pm.actualText = a) := by
        rintro ⟨h1, h2⟩
        exact heq (by rw [hk, h1, h2])
      have hcond2 : (pm.pattern == p && pm.actualText == a) = false := by
        cases hbb : (pm.pattern == p && pm.actualText == a) with
        | false => rfl
        | true =>
          simp only [Bool.and_eq_true, beq_iff_eq] at hbb
          exact (hpairne hbb).elim
      obtain ⟨ihm, ihinv⟩ := ih p a ha hinv'
      constructor
      · simp only [bumpKey]
        rw [if_neg (by simp [hcond])]
        simp only [List.map_cons, bumpPair]
        rw [if_neg (by simp [hcond2])]
        simp [ihm]
      · intro e he
        simp only [bumpKey] at he
        rw [if_neg (by simp [hcond])] at he
        rcases List.mem_cons.mp he with h1 | h1
        · subst h1
          exact ⟨hk, hlen⟩
        · exact ihinv e h1

/-- The whole keyed fold projects to the pair-keyed fold. -/
theorem foldl_bumpKey_map_snd : ∀ (s : List (Chars × Chars)) (m : List (Chars × PatternMatch)),
    (∀ pr ∈ s, pr.2.length = pr.1.length) →
    (∀ e ∈ m, e.1 = matchKey e.2.pattern e.2.actualText ∧
      e.2.actualText.length = e.2.pattern.length) →
    (s.foldl (fun m' pr => bumpKey (matchKey pr.1 pr.2) pr.1 pr.2 m') m).map Prod.snd =
      pairFold s (m.map Prod.snd) := by
  intro s
  induction s with
  | nil => intro m _ _; rfl
  | cons pr s' ih =>
    intro m hs hinv
    obtain ⟨hstep, hinv'⟩ :=
      bumpKey_map_snd m pr.1 pr.2 (hs pr (List.mem_cons_self _ _)) hinv
    simp only [List.foldl_cons, pairFold] at *
    rw [ih _ (fun q hq => hs q (List.mem_cons_of_mem _ hq)) hinv', hstep]

/-- Folding the keyed update over the flattened pair stream is the
nested fold that `findPatternMatches` performs. -/
theorem foldl_flatMap_occ : ∀ (Ps : List Chars) (T : Chars) (cs : Bool)
    (init : List (Chars × PatternMatch)),
    (Ps.flatMap fun p => (occList (!cs) p T).map fun a => (p, a)).foldl
      (fun m' pr => bumpKey (matchKey pr.1 pr.2) pr.1 pr.2 m') init =
    Ps.foldl
      (fun m pattern => (occList (!cs) pattern T).foldl
        (fun m' actual => bumpKey (matchKey pattern actual) pattern actual m') m) init := by
  intro Ps
  induction Ps with
  | nil => intro T cs init; rfl
  | cons p Ps ih =>
    intro T cs init
    simp only [List.flatMap_cons, List.foldl_append, List.foldl_cons, List.foldl_map]
    rw [ih]

/-- `findPatternMatches` is the keyed fold over its pair stream. -/
theorem findPatternMatches_eq_foldStream : ∀ (T : Chars) (Ps : List Chars) (cs : Bool),
    findPatternMatches T Ps cs =
      ((pairStream T Ps cs).foldl
        (fun m' pr => bumpKey (matchKey pr.1 pr.2) pr.1 pr.2 m') []).map Prod.snd := by
  intro T Ps cs
  simp only [findPatternMatches, pairStream]
  rw [foldl_flatMap_occ]

/-- Every stream element's actual text has its pattern's length. -/
theorem pairStream_length : ∀ (T : Chars) (Ps : List Chars) (cs : Bool),
    ∀ pr ∈ pairStream T Ps cs, pr.2.length = pr.1.length := by
  intro T Ps cs pr hpr
  simp only [pairStream, List.mem_flatMap, List.mem_map] at hpr
  obtain ⟨p, hp, a, ha, rfl⟩ := hpr
  exact occList_length_mem (!cs) p T a ha

/-- `findPatternMatches` equals the pair-keyed fold over its stream. -/
theorem findPatternMatches_eq_pairFold : ∀ (T : Chars) (Ps : List Chars) (cs : Bool),
    findPatternMatches T Ps cs = pairFold (pairStream T Ps cs) [] := by
  intro T Ps cs
  rw [findPatternMatches_eq_foldStream]
  exact foldl_bumpKey_map_snd (pairStream T Ps cs) [] (pairStream_length T Ps cs)
    (by intro e he; simp at he)

/-- Membership in the first-encounter dedup. -/
theorem mem_seenDedup : ∀ (s seen : List (Chars × Chars)) (y : Chars × Chars),
    y ∈ seenDedup seen s ↔ y ∈ s ∧ y ∉ seen := by
  intro s
  induction s with
  | nil => intro seen y; simp [seenDedup]
  | cons x xs ih =>
    intro seen y
    by_cases hx : x ∈ seen
    · rw [seenDedup, if_pos hx, ih]
      constructor
      · rintro ⟨h1, h2⟩; exact ⟨List.mem_cons_of_mem _ h1, h2⟩
      · rintro ⟨h1, h2⟩
        rcases List.mem_cons.mp h1 with rfl | h1
        · exact absurd hx h2
        · exact ⟨h1, h2⟩
    · rw [seenDedup, if_neg hx]
      constructor
      · intro h
        rcases List.mem_cons.mp h with rfl | h
        · exact ⟨List.mem_cons_self _ _, hx⟩
        · obtain ⟨h1, h2⟩ := (ih (x :: seen) y).mp h
          refine ⟨List.mem_cons_of_mem _ h1, fun hc => h2 (List.mem_cons_of_mem _ hc)⟩
      · rintro ⟨h1, h2⟩
        rcases List.mem_cons.mp h1 with rfl | h1
        · exact List.mem_cons_self _ _
        · by_cases hxy : y = x
          · subst hxy; exact List.mem_cons_self _ _
          · exact List.mem_cons_of_mem _ ((ih (x :: seen) y).mpr
              ⟨h1, fun hc => by
                rcases List.mem_cons.mp hc with h3 | h3
                · exact hxy h3
                · exact h2 h3⟩)

/-- The first-encounter dedup has no duplicates. -/
theorem seenDedup_nodup : ∀ (s seen : List (Chars × Chars)), (seenDedup seen s).Nodup := by
  intro s
  induction s with
  | nil => intro seen; simp [seenDedup]
  | cons x xs ih =>
    intro seen
    by_cases hx : x ∈ seen
    · rw [seenDedup, if_pos hx]; exact ih seen
    · rw [seenDedup, if_neg hx]
      refine List.nodup_cons.mpr ⟨?_, ih (x :: seen)⟩
      intro hc
      exact ((mem_seenDedup xs (x :: seen) x).mp hc).2 (List.mem_cons_self _ _)

/-- Appending one stream element extends the first-encounter dedup by
that element exactly when it is new. -/
theorem seenDedup_append_single : ∀ (s seen : List (Chars × Chars)) (x : Chars × Chars),
    seenDedup seen (s ++ [x]) =
      seenDedup seen s ++ (if x ∈ seen ∨ x ∈ s then [] else [x]) := by
  intro s
  induction s with
  | nil =>
    intro seen x
    by_cases hx : x ∈ seen
    · rw [seenDedup]
      simp [seenDedup, hx]
    · rw [seenDedup]
      simp [seenDedup, hx]
  | cons y ys ih =>
    intro seen x
    by_cases hy : y ∈ seen
    · rw [List.cons_append, seenDedup, if_pos hy, seenDedup, if_pos hy, ih]
      by_cases hx : x ∈ seen ∨ x ∈ ys
      · rw [if_pos hx, if_pos]
        rcases hx with hx | hx
        · exact Or.inl hx
        · exact Or.inr (List.mem_cons_of_mem _ hx)
      · rw [if_neg hx, if_neg]
        rintro (h1 | h1)
        · exact hx (Or.inl h1)
        · rcases List.mem_cons.mp h1 with rfl | h1
          · exact hx (Or.inl hy)
          · exact hx (Or.inr h1)
    · rw [List.cons_append, seenDedup, if_neg hy, seenDedup, if_neg hy, ih]
      by_cases hx : x ∈ y :: seen ∨ x ∈ ys
      · rw [if_pos hx, if_pos]
        · simp
        · rcases hx with hx | hx
          · rcases List.mem_cons.mp hx with rfl | hx
            · exact Or.inr (List.mem_cons_self _ _)
            · exact Or.inl hx
          · exact Or.inr (List.mem_cons_of_mem _ hx)
      · rw [if_neg hx, if_neg]
        · simp
        · rintro (h1 | h1)
          · exact hx (Or.inl (List.mem_cons_of_mem _ h1))
          · rcases List.mem_cons.mp h1 with rfl | h1
            · exact hx (Or.inl (List.mem_cons_self _ _))
            · exact hx (Or.inr h1)

/-- A bump on an already-present pair leaves the entry pairs alone. -/
theorem bumpPair_pairs_mem : ∀ (m : List PatternMatch) (p a : Chars),
    (p, a) ∈ m.map pairOf → (bumpPair p a m).map pairOf = m.map pairOf := by
  intro m
  induction m with
  | nil => intro p a h; simp at h
  | cons pm rest ih =>
    intro p a h
    by_cases hc : (pm.pattern == p && pm.actualText == a) = true
    · simp only [bumpPair]
      rw [if_pos hc]
      simp [pairOf]
    · simp only [bumpPair]
      rw [if_neg (by simp [hc])]
      have hne : pairOf pm ≠ (p, a) := by
        intro hpp
        simp only [pairOf, Prod.mk.injEq] at hpp
        simp [hpp.1, hpp.2] at hc
      have h' : (p, a) ∈ rest.map pairOf := by
        simp only [List.map_cons, List.mem_cons] at h
        rcases h with h1 | h1
        · exact absurd h1.symm hne
        · exact h1
      simp only [List.map_cons]
      rw [ih p a h']

/-- A bump on a new pair appends one fresh entry. -/
theorem bumpPair_pairs_new : ∀ (m : List PatternMatch) (p a : Chars),
    (p, a) ∉ m.map pairOf →
    (bumpPair p a m).map pairOf = m.map pairOf ++ [(p, a)] := by
  intro m
  induction m with
  | nil => intro p a _; simp [bumpPair, pairOf]
  | cons pm rest ih =>
    intro p a h
    have hne : pairOf pm ≠ (p, a) := by
      intro hpp
      exact h (by simp only [List.map_cons, List.mem_cons]; exact Or.inl hpp.symm)
    have hc : (pm.pattern == p && pm.actualText == a) = false := by
      cases hbb : (pm.pattern == p && pm.actualText == a) with
      | false => rfl
      | true =>
        simp only [Bool.and_eq_true, beq_iff_eq] at hbb
        exact (hne (by simp [pairOf, hbb.1, hbb.2])).elim
    simp only [bumpPair]
    rw [if_neg (by simp [hc])]
    have h' : (p, a) ∉ rest.map pairOf := fun hc' =>
      h (by simp only [List.map_cons, List.mem_cons]; exact Or.inr hc')
    simp only [List.map_cons]
    rw [ih p a h']
    simp

/-- Appending one element to a stream adjusts one pair's multiplicity. -/
theorem countPA_append_single : ∀ (s : List (Chars × Chars)) (q b p a : Chars),
    countPA (s ++ [(q, b)]) p a =
      countPA s p a + (if q = p ∧ b = a then 1 else 0) := by
  intro s q b p a
  simp only [countPA, List.filter_append, List.length_append]
  congr 1
  by_cases h : q = p ∧ b = a
  · rw [if_pos h]
    simp [h.1, h.2]
  · rw [if_neg h]
    have : ((q, b).1 == p && (q, b).2 == a) = false := by
      cases hbb : ((q, b).1 == p && (q, b).2 == a) with
      | false => rfl
      | true =>
        simp only [Bool.and_eq_true, beq_iff_eq] at hbb
        exact (h hbb).elim
    simp [List.filter, this]

/-- A pair absent from the stream has multiplicity zero. -/
theorem countPA_eq_zero : ∀ (s : List (Chars × Chars)) (p a : Chars),
    (p, a) ∉ s → countPA s p a = 0 := by
  intro s p a h
  simp only [countPA, List.length_eq_zero]
  rw [List.filter_eq_nil_iff]
  intro pr hpr
  intro hc
  simp only [Bool.and_eq_true, beq_iff_eq] at hc
  exact h (by
    have : pr = (p, a) := Prod.ext hc.1 hc.2
    rwa [this] at hpr)

/-- Effect of one bump on every entry's count: the bumped pair gains
one, all other entries are untouched (entry pairs are distinct). -/
theorem bumpPair_counts : ∀ (m : List PatternMatch) (p a : Chars) (f : Chars → Chars → Nat),
    (m.map pairOf).Nodup →
    (∀ e ∈ m, e.count = f e.pattern e.actualText) →
    ((p, a) ∉ m.map pairOf → f p a = 0) →
    ∀ e' ∈ bumpPair p a m,
      e'.count = f e'.pattern e'.actualText +
        (if e'.pattern = p ∧ e'.actualText = a then 1 else 0) := by
  intro m
  induction m with
  | nil =>
    intro p a f _ _ h0 e' he'
    simp only [bumpPair, List.mem_singleton] at he'
    subst he'
    simp [h0 (by simp)]
  | cons pm rest ih =>
    intro p a f hnodup hcount h0 e' he'
    have hnodup' : (rest.map pairOf).Nodup := (List.nodup_cons.mp (by simpa using hnodup)).2
    have hhead : pairOf pm ∉ rest.map pairOf := (List.nodup_cons.mp (by simpa using hnodup)).1
    by_cases hc : (pm.pattern == p && pm.actualText == a) = true
    · have hpair : pm.pattern = p ∧ pm.actualText = a := by
        simpa only [Bool.and_eq_true, beq_iff_eq] using hc
      simp only [bumpPair] at he'
      rw [if_pos hc] at he'
      rcases List.mem_cons.mp he' with rfl | h1
      · simp only [if_pos hpair]
        rw [hcount pm (List.mem_cons_self _ _)]
      · have hne : ¬(e'.pattern = p ∧ e'.actualText = a) := by
          rintro ⟨hq, hb⟩
          apply hhead
          have : pairOf e' = pairOf pm := by
            simp [pairOf, hq, hb, hpair.1, hpair.2]
          rw [← this]
          exact List.mem_map_of_mem pairOf h1
        rw [if_neg hne, Nat.add_zero]
        exact hcount e' (List.mem_cons_of_mem _ h1)
    · have hpairne : ¬(pm.pattern = p ∧ pm.actualText = a) := by
        rintro ⟨h1, h2⟩
        simp [h1, h2] at hc
      simp only [bumpPair] at he'
      rw [if_neg (by simpa using hc)] at he'
      rcases List.mem_cons.mp he' with rfl | h1
      · rw [if_neg hpairne, Nat.add_zero]
        exact hcount e' (List.mem_cons_self _ _)
      · have h0' : (p, a) ∉ rest.map pairOf → f p a = 0 := by
          intro hr
          apply h0
          simp only [List.map_cons, List.mem_cons, not_or]
          refine ⟨?_, hr⟩
          intro hpp
          exact hpairne ⟨congrArg Prod.fst hpp.symm, congrArg Prod.snd hpp.symm⟩
        exact ih p a f hnodup' (fun e he => hcount e (List.mem_cons_of_mem _ he)) h0' e' h1

/-- Invariant of the aggregation fold: after processing a prefix of the
stream, the entry pairs are the distinct pairs of that prefix in
first-encounter order and every entry's count is its pair's
multiplicity so far. -/
theorem pairFold_invariant : ∀ (s processed : List (Chars × Chars)) (state : List PatternMatch),
    state.map pairOf = firstEncounters processed →
    (∀ e ∈ state, e.count = countPA processed e.pattern e.actualText) →
    (pairFold s state).map pairOf = firstEncounters (processed ++ s) ∧
      ∀ e ∈ pairFold s state, e.count = countPA (processed ++ s) e.pattern e.actualText := by
  intro s
  induction s with
  | nil =>
    intro processed state hpairs hcounts
    refine ⟨by simpa using hpairs, by simpa using hcounts⟩
  | cons pr s' ih =>
    intro processed state hpairs hcounts
    obtain ⟨p, a⟩ := pr
    have hmem_iff : (p, a) ∈ state.map pairOf ↔ (p, a) ∈ processed := by
      rw [hpairs, firstEncounters, mem_seenDedup]
      simp
    have hnodup : (state.map pairOf).Nodup := by
      rw [hpairs]; exact seenDedup_nodup processed []
    have hpairs' : (bumpPair p a state).map pairOf =
        firstEncounters (processed ++ [(p, a)]) := by
      rw [firstEncounters, seenDedup_append_single]
      by_cases hin : (p, a) ∈ state.map pairOf
      · rw [bumpPair_pairs_mem state p a hin, hpairs, if_pos (Or.inr (hmem_iff.mp hin))]
        simp [firstEncounters]
      · rw [bumpPair_pairs_new state p a hin, hpairs,
          if_neg (by simpa using fun hc => hin (hmem_iff.mpr hc))]
        simp [firstEncounters]
    have hcounts' : ∀ e ∈ bumpPair p a state,
        e.count = countPA (processed ++ [(p, a)]) e.pattern e.actualText := by
      intro e he
      have h1 := bumpPair_counts state p a (fun q b => countPA processed q b) hnodup hcounts
        (fun hnin => countPA_eq_zero processed p a (fun hc => hnin (hmem_iff.mpr hc))) e he
      rw [countPA_append_single]
      rw [h1]
      congr 1
      by_cases hcond : e.pattern = p ∧ e.actualText = a
      · rw [if_pos hcond, if_pos ⟨hcond.1.symm, hcond.2.symm⟩]
      · rw [if_neg hcond, if_neg (fun hc => hcond ⟨hc.1.symm, hc.2.symm⟩)]
    have hstep : pairFold ((p, a) :: s') state = pairFold s' (bumpPair p a state) := rfl
    rw [hstep]
    have := ih (processed ++ [(p, a)]) (bumpPair p a state) hpairs' hcounts'
    rwa [List.append_assoc, List.singleton_append] at this

/-- The aggregation of the full stream from the empty map: entry pairs
are the distinct stream pairs in first-encounter order, and each
entry's count is its pair's multiplicity in the stream. -/
theorem pairFold_full : ∀ (s : List (Chars × Chars)),
    (pairFold s []).map pairOf = firstEncounters s ∧
      ∀ e ∈ pairFold s [], e.count = countPA s e.pattern e.actualText := by
  intro s
  have := pairFold_invariant s [] [] rfl (by intro e he; simp at he)
  simpa using this

/-- A duplicate-free list whose elements are all equal has at most one
element. -/
theorem length_le_one_nodup_const {α : Type} : ∀ (l : List α) (x : α),
    l.Nodup → (∀ y ∈ l, y = x) → l.length ≤ 1 := by
  intro l x hnd hall
  match l, hnd, hall with
  | [], _, _ => simp
  | [a], _, _ => simp
  | a :: b :: t, hnd, hall =>
    have ha : a = x := hall a (List.mem_cons_self _ _)
    have hb : b = x := hall b (List.mem_cons_of_mem _ (List.mem_cons_self _ _))
    have : a ∉ b :: t := (List.nodup_cons.mp hnd).1
    exact absurd (by rw [ha, ← hb]; exact List.mem_cons_self _ _) this

/-! ## C3: grouping, per-casing counts and first-encounter order -/

/-- C3.  `findPatternMatches` groups by (pattern, actualText): the
entries are exactly the distinct pairs of the occurrence stream in
first-encounter order (patterns in the order given, occurrences left to
right), each entry carries the multiplicity of its own pair (so
distinct casings are separate entries with separate counts), and in
case-sensitive mode there is at most one entry per pattern. -/
theorem findPatternMatches_grouping : ∀ (T : Chars) (Ps : List Chars) (cs : Bool),
    ((findPatternMatches T Ps cs).map pairOf = firstEncounters (pairStream T Ps cs)) ∧
    (∀ e ∈ findPatternMatches T Ps cs,
      e.count = countPA (pairStream T Ps cs) e.pattern e.actualText) ∧
    (cs = true → ∀ p : Chars,
      ((findPatternMatches T Ps cs).filter fun e => e.pattern == p).length ≤ 1) := by
  intro T Ps cs
  have hmain := pairFold_full (pairStream T Ps cs)
  have heq := findPatternMatches_eq_pairFold T Ps cs
  have hpairs : (findPatternMatches T Ps cs).map pairOf =
      firstEncounters (pairStream T Ps cs) := by rw [heq]; exact hmain.1
  refine ⟨hpairs, by rw [heq]; exact hmain.2, ?_⟩
  rintro rfl p
  have hdiag : ∀ e ∈ findPatternMatches T Ps true, e.actualText = e.pattern := by
    intro e he
    have hpe : pairOf e ∈ firstEncounters (pairStream T Ps true) := by
      rw [← hpairs]
      exact List.mem_map_of_mem pairOf he
    have hmem : pairOf e ∈ pairStream T Ps true :=
      ((mem_seenDedup _ [] _).mp hpe).1
    simp only [pairStream, List.mem_flatMap, List.mem_map] at hmem
    obtain ⟨q, hq, b, hb, hqb⟩ := hmem
    have hbq : b = q := occList_caseSensitive_mem q T b hb
    have h1 : e.pattern = q := congrArg Prod.fst hqb.symm
    have h2 : e.actualText = b := congrArg Prod.snd hqb.symm
    rw [h1, h2, hbq]
  have hnodup : ((findPatternMatches T Ps true).map pairOf).Nodup := by
    rw [hpairs]
    exact seenDedup_nodup _ []
  have hsub : ((findPatternMatches T Ps true).filter fun e => e.pattern == p).map pairOf
      |>.Nodup := by
    exact List.Nodup.sublist (List.Sublist.map pairOf (List.filter_sublist _)) hnodup
  have hall : ∀ y ∈ ((findPatternMatches T Ps true).filter
      fun e => e.pattern == p).map pairOf, y = (p, p) := by
    intro y hy
    simp only [List.mem_map, List.mem_filter] at hy
    obtain ⟨e, ⟨he, hep⟩, rfl⟩ := hy
    have h1 : e.pattern = p := beq_iff_eq.mp hep
    have h2 : e.actualText = e.pattern := hdiag e he
    simp [pairOf, h1, h2.trans h1]
  have := length_le_one_nodup_const _ (p, p) hsub hall
  simpa using this

/-- Witness for C3 at a concrete input, discharging the
case-sensitive-mode hypothesis: scanning `aa` for pattern `a`
case-sensitively yields at most one entry for `a`. -/
theorem findPatternMatches_grouping_witness :
    ((findPatternMatches "aa".toList ["a".toList] true).filter
      fun e => e.pattern == "a".toList).length ≤ 1 :=
  (findPatternMatches_grouping "aa".toList ["a".toList] true).2.2 rfl "a".toList

/-- One bump adds exactly one to the total of all counts. -/
theorem bumpPair_sum : ∀ (m : List PatternMatch) (p a : Chars),
    ((bumpPair p a m).map PatternMatch.count).sum = (m.map PatternMatch.count).sum + 1 := by
  intro m
  induction m with
  | nil => intro p a; simp [bumpPair]
  | cons pm rest ih =>
    intro p a
    by_cases hc : (pm.pattern == p && pm.actualText == a) = true
    · simp only [bumpPair]
      rw [if_pos hc]
      simp only [List.map_cons, List.sum_cons]
      omega
    · simp only [bumpPair]
      rw [if_neg (by simpa using hc)]
      simp only [List.map_cons, List.sum_cons, ih]
      omega

/-- The aggregation adds one per stream element to the total count. -/
theorem pairFold_sum : ∀ (s : List (Chars × Chars)) (m : List PatternMatch),
    ((pairFold s m).map PatternMatch.count).sum = (m.map PatternMatch.count).sum + s.length := by
  intro s
  induction s with
  | nil => intro m; simp [pairFold]
  | cons pr s' ih =>
    intro m
    have hstep : pairFold (pr :: s') m = pairFold s' (bumpPair pr.1 pr.2 m) := rfl
    rw [hstep, ih, bumpPair_sum]
    simp only [List.length_cons]
    omega

/-- The source's `reduce` total is the sum of the counts. -/
theorem totalOf_eq_sum : ∀ (ms : List PatternMatch),
    totalOf ms = (ms.map PatternMatch.count).sum := by
  have aux : ∀ (ms : List PatternMatch) (n : Nat),
      ms.foldl (fun s m => s + m.count) n = n + (ms.map PatternMatch.count).sum := by
    intro ms
    induction ms with
    | nil => intro n; simp
    | cons pm rest ih =>
      intro n
      simp only [List.foldl_cons, List.map_cons, List.sum_cons, ih]
      omega
  intro ms
  simpa using aux ms 0

/-- Every count stays at least one through a bump. -/
theorem bumpPair_pos : ∀ (m : List PatternMatch) (p a : Chars),
    (∀ e ∈ m, 1 ≤ e.count) → ∀ e ∈ bumpPair p a m, 1 ≤ e.count := by
  intro m
  induction m with
  | nil =>
    intro p a _ e he
    simp only [bumpPair, List.mem_singleton] at he
    subst he
    exact Nat.le_refl 1
  | cons pm rest ih =>
    intro p a h e he
    by_cases hc : (pm.pattern == p && pm.actualText == a) = true
    · simp only [bumpPair] at he
      rw [if_pos hc] at he
      rcases List.mem_cons.mp he with rfl | h1
      · simp
      · exact h e (List.mem_cons_of_mem _ h1)
    · simp only [bumpPair] at he
      rw [if_neg (by simpa using hc)] at he
      rcases List.mem_cons.mp he with rfl | h1
      · exact h e (List.mem_cons_self _ _)
      · exact ih p a (fun e' he' => h e' (List.mem_cons_of_mem _ he')) e h1

/-- Every count stays at least one through the whole aggregation. -/
theorem pairFold_pos : ∀ (s : List (Chars × Chars)) (m : List PatternMatch),
    (∀ e ∈ m, 1 ≤ e.count) → ∀ e ∈ pairFold s m, 1 ≤ e.count := by
  intro s
  induction s with
  | nil => intro m h; exact h
  | cons pr s' ih =>
    intro m h
    exact ih (bumpPair pr.1 pr.2 m) (bumpPair_pos m pr.1 pr.2 h)

/-- The stream's length is the total number of occurrences over all
patterns. -/
theorem pairStream_length_sum : ∀ (T : Chars) (Ps : List Chars) (cs : Bool),
    (pairStream T Ps cs).length = (Ps.map fun p => (occList (!cs) p T).length).sum := by
  intro T Ps cs
  induction Ps with
  | nil => rfl
  | cons p Ps ih =>
    have h1 : pairStream T (p :: Ps) cs =
        ((occList (!cs) p T).map fun a => (p, a)) ++ pairStream T Ps cs := by
      simp [pairStream]
    rw [h1]
    simp only [List.length_append, List.length_map, List.map_cons, List.sum_cons, ih]

/-! ## C2: total count equals the number of non-overlapping occurrences -/

/-- C2.  The counts of all returned entries sum to the total number of
non-overlapping occurrences of the patterns found by the matchAll scan,
and every entry's count is at least one. -/
theorem findPatternMatches_total : ∀ (T : Chars) (Ps : List Chars) (cs : Bool),
    totalOf (findPatternMatches T Ps cs) =
      (Ps.map fun p => (occList (!cs) p T).length).sum ∧
    ∀ e ∈ findPatternMatches T Ps cs, 1 ≤ e.count := by
  intro T Ps cs
  rw [findPatternMatches_eq_pairFold, totalOf_eq_sum]
  constructor
  · rw [pairFold_sum, ← pairStream_length_sum]
    simp
  · exact pairFold_pos _ [] (by intro e he; simp at he)

/-- Witness for C2's count bound at a concrete input: scanning `aba`
for `a` case-sensitively yields the entry (a, a) with count 2 ≥ 1. -/
theorem findPatternMatches_total_witness :
    1 ≤ (PatternMatch.mk "a".toList "a".toList 2).count :=
  (findPatternMatches_total "aba".toList ["a".toList] true).2
    ⟨"a".toList, "a".toList, 2⟩ (by decide)
